import Mathlib

/-!
Verification development for the roombase chat application.

The development shallowly embeds the core components of the repository:

* `MessageRepository` (message store ADT with threading, edit history,
  soft deletion, room index) from `src/utils/messageRepository.ts`;
* `CommandParser` from `src/utils/commandParser.ts`;
* the moderation DSL parser and rule evaluation from
  `src/utils/moderationDSL.ts`;
* `UserRepository` from `src/utils/users.ts`.

JavaScript `Map`s are embedded as insertion-ordered association lists,
`Set`s of ids as duplicate-free lists in insertion order.  A JS object
reference to a message is embedded as the message's id: every message
object is stored in the repository's `messages` map under its unique id,
and `replies` arrays hold references to those same objects, so an id
faithfully stands for the object as long as ids are unique (the
repository generates fresh ids).  Mutation of a shared object is embedded
as an update of the heap entry for its id.  A thrown JS exception is the
`JsResult.thrown` constructor; since exceptions can propagate after part
of a mutation has happened, operations always return the (possibly
mutated) state alongside the result.  Ambient effects (the wall clock
`Date.now()`, formatted display time, generated ids) are passed as
explicit arguments.
-/

/-- Result of a JavaScript call: a returned value or a thrown exception. -/
inductive JsResult (α : Type) where
  | ok (val : α)
  | thrown (msg : String)
deriving Repr, DecidableEq

/-- JS `Map.get`: first binding of the key, if any. -/
def listGet {α : Type} : List (String × α) → String → Option α
  | [], _ => none
  | (k', v') :: rest, k => if k' = k then some v' else listGet rest k

/-- JS `Map.set`: replace the binding in place if the key is present,
otherwise append the new binding (JS maps preserve insertion order). -/
def listSet {α : Type} : List (String × α) → String → α → List (String × α)
  | [], k, v => [(k, v)]
  | (k', v') :: rest, k, v =>
    if k' = k then (k, v) :: rest else (k', v') :: listSet rest k v

/-- JS `Map.delete`: remove the binding of the key, if present. -/
def eraseKey {α : Type} : List (String × α) → String → List (String × α)
  | [], _ => []
  | (k', v') :: rest, k => if k' = k then rest else (k', v') :: eraseKey rest k

/-- JS `Set.add` on an insertion-ordered set of strings. -/
def setAdd (xs : List String) (x : String) : List String :=
  if x ∈ xs then xs else xs ++ [x]

/-- Boolean duplicate-freeness of a list of strings. -/
def nodupB : List String → Bool
  | [] => true
  | x :: xs => !(xs.any (fun y => y = x)) && nodupB xs

/-- ASCII lowercasing of one character (what `String.toLowerCase` does on
the ASCII inputs this development evaluates). -/
def lowerChar (c : Char) : Char :=
  if 65 ≤ c.toNat ∧ c.toNat ≤ 90 then Char.ofNat (c.toNat + 32) else c

/-- JS `String.prototype.toLowerCase`. -/
def lowerString (s : String) : String := ⟨s.data.map lowerChar⟩

/-- Does `hay` start with `pat`? -/
def startsWithList : List Char → List Char → Bool
  | _, [] => true
  | [], _ :: _ => false
  | c :: cs, p :: ps => c = p && startsWithList cs ps

/-- Is `pat` a contiguous sublist of `hay`?  Embeds
`String.prototype.includes` (the empty pattern is always included). -/
def hasSubList (pat : List Char) : List Char → Bool
  | [] => startsWithList [] pat
  | c :: rest => startsWithList (c :: rest) pat || hasSubList pat rest

/-- JS `a.includes(b)` on strings. -/
def strIncludes (s pat : String) : Bool := hasSubList pat.data s.data

/-- Whitespace for the purposes of JS `\s` / `trim` (ASCII fragment). -/
def isWsJs (c : Char) : Bool := c = ' ' || c = '\t' || c = '\n' || c = '\r'

/-- JS `String.prototype.trim` (ASCII whitespace fragment). -/
def jsTrim (s : String) : String :=
  ⟨((s.data.dropWhile isWsJs).reverse.dropWhile isWsJs).reverse⟩

/-! ## The message store (`MessageRepository`) -/

/-- One entry of a message's edit history (`MessageEdit` in
`src/types/index.ts`). -/
structure MessageEdit where
  text : String
  timestamp : Nat
  time : String
deriving Repr, DecidableEq

/-- A chat message (`Message` in `src/types/index.ts`).  The `replies`
field holds the ids of the directly embedded child message objects (see
the header comment on the id-for-reference embedding). -/
structure Message where
  id : String
  username : String
  text : String
  time : String
  timestamp : Nat
  room : String
  edited : Bool
  editHistory : List MessageEdit
  deleted : Bool
  parentId : Option String
  replies : List String
deriving Repr, DecidableEq

/-- Private representation of `MessageRepository`: the authoritative
message index and the per-room id index. -/
structure RepoState where
  messages : List (String × Message)
  messagesByRoom : List (String × List String)
deriving Repr, DecidableEq

/-- The empty repository (constructor postcondition). -/
def emptyRepo : RepoState := ⟨[], []⟩

/-- Boolean adjacent-pairs chronological check on an edit history, as in
`checkRep` (throws when `editHistory[i].timestamp <
editHistory[i-1].timestamp`). -/
def chronB : List MessageEdit → Bool
  | [] => true
  | [_] => true
  | a :: b :: rest => (a.timestamp ≤ b.timestamp) && chronB (b :: rest)

/-- The parent-existence part of `MessageRepository.checkRep`: when
`parentId` is truthy (set and non-empty) the parent id must be a stored
key. -/
def parentOkB (keys : List String) : Option String → Bool
  | none => true
  | some p => decide (p = "") || keys.any (fun k => k = p)

/-- Per-message part of `MessageRepository.checkRep`: positive timestamp,
chronological edit history, and an existing parent. -/
def msgOkB (keys : List String) (m : Message) : Bool :=
  decide (0 < m.timestamp) && chronB m.editHistory && parentOkB keys m.parentId

/-- `MessageRepository.checkRep` as a boolean: unique ids plus the
per-message checks.  Operations throw `Invariant violation` when it is
false. -/
def checkRepB (s : RepoState) : Bool :=
  nodupB (s.messages.map Prod.fst) &&
    s.messages.all (fun p => msgOkB (s.messages.map Prod.fst) p.2)

/-- `MessageRepository.addMessage`.  `id`, `now` and `tm` stand for the
generated id, `Date.now()` and the formatted display time.  Mirrors the
source: precondition throws, insertion into the global index, insertion
into the room index, push onto the parent's reply list when the `parentId`
argument is truthy, then `checkRep`. -/
def addMessage (s : RepoState) (username text room : String)
    (parentId : Option String) (id : String) (now : Nat) (tm : String) :
    JsResult Message × RepoState :=
  if username = "" then
    (.thrown "Precondition violated: username must be non-empty", s)
  else if text = "" then
    (.thrown "Precondition violated: text must be non-empty", s)
  else if room = "" then
    (.thrown "Precondition violated: room must be non-empty", s)
  else if (match parentId with
           | some p => !(decide (p = "")) && (listGet s.messages p).isNone
           | none => false) then
    (.thrown "Precondition violated: parent message does not exist", s)
  else
    let msg : Message :=
      ⟨id, username, text, tm, now, room, false, [], false, parentId, []⟩
    let ms1 := listSet s.messages id msg
    let roomIds := (listGet s.messagesByRoom room).getD []
    let rooms1 := listSet s.messagesByRoom room (setAdd roomIds id)
    let ms2 :=
      match parentId with
      | some p =>
        if p = "" then ms1
        else
          match listGet ms1 p with
          | some parent => listSet ms1 p { parent with replies := parent.replies ++ [id] }
          | none => ms1
      | none => ms1
    let s' : RepoState := ⟨ms2, rooms1⟩
    if checkRepB s' then (.ok msg, s') else (.thrown "Invariant violation", s')

/-- `MessageRepository.editMessage`.  `ok none` is the authorization
outcome (`null`); `now` and `tm` are `Date.now()` and the display time. -/
def editMessage (s : RepoState) (messageId newText username : String)
    (now : Nat) (tm : String) : JsResult (Option Message) × RepoState :=
  if messageId = "" then
    (.thrown "Precondition violated: messageId cannot be null", s)
  else if newText = "" then
    (.thrown "Precondition violated: newText must be non-empty", s)
  else
    match listGet s.messages messageId with
    | none => (.thrown "Precondition violated: message does not exist", s)
    | some m =>
      if m.deleted then
        (.thrown "Precondition violated: cannot edit deleted message", s)
      else if ¬(m.username = username) then
        (.ok none, s)
      else
        let m' : Message :=
          { m with
            text := newText
            edited := true
            time := tm
            timestamp := now
            editHistory := m.editHistory ++ [⟨m.text, m.timestamp, m.time⟩] }
        let s' : RepoState := ⟨listSet s.messages messageId m', s.messagesByRoom⟩
        if checkRepB s' then (.ok (some m'), s') else (.thrown "Invariant violation", s')

/-- `MessageRepository.deleteMessage` (soft delete). -/
def deleteMessage (s : RepoState) (messageId username : String) :
    JsResult Bool × RepoState :=
  if messageId = "" then
    (.thrown "Precondition violated: messageId cannot be null", s)
  else
    match listGet s.messages messageId with
    | none => (.thrown "Precondition violated: message does not exist", s)
    | some m =>
      if ¬(m.username = username) then
        (.ok false, s)
      else
        let m' : Message := { m with deleted := true, text := "[Message deleted]" }
        let s' : RepoState := ⟨listSet s.messages messageId m', s.messagesByRoom⟩
        if checkRepB s' then (.ok true, s') else (.thrown "Invariant violation", s')

/-- `MessageRepository.getMessage`: pure lookup. -/
def getMessage (s : RepoState) (messageId : String) : Option Message :=
  listGet s.messages messageId

/-- Stable ascending-by-timestamp insertion, embedding the stable JS
`Array.prototype.sort((a, b) => a.timestamp - b.timestamp)`. -/
def insertByTs (m : Message) : List Message → List Message
  | [] => [m]
  | x :: xs => if x.timestamp ≤ m.timestamp then x :: insertByTs m xs else m :: x :: xs

/-- Stable sort by ascending timestamp. -/
def sortByTs (l : List Message) : List Message := l.foldr insertByTs []

/-- `MessageRepository.getMessagesForRoom`: the room index resolved
against the global index, deleted messages skipped, sorted by ascending
timestamp. -/
def getMessagesForRoom (s : RepoState) (room : String) : List Message :=
  match listGet s.messagesByRoom room with
  | none => []
  | some ids =>
    sortByTs (ids.filterMap fun id =>
      match listGet s.messages id with
      | some m => if m.deleted then none else some m
      | none => none)

/-- The children of `rids` surviving the thread filter
(`replies.filter(reply => !reply.deleted)`), resolved through the heap. -/
def keptChildren (s : RepoState) (rids : List String) : List String :=
  rids.filter fun rid =>
    match listGet s.messages rid with
    | some r => !r.deleted
    | none => false

/-- The recursive helper `populateReplies` of
`MessageRepository.getMessageThread`, applied to the *stored* message
object with the given id.  It reassigns that object's `replies` to the
filtered, recursively processed children — an in-place mutation of the
heap, returned as the new state.  `fuel` bounds the recursion depth (the
JS recursion terminates on the reply forests the repository builds; any
fuel at least the number of stored messages is enough). -/
def popReplies (s : RepoState) : Nat → String → RepoState
  | 0, _ => s
  | fuel + 1, id =>
    match listGet s.messages id with
    | none => s
    | some m =>
      if m.replies = [] then s
      else
        let kept := keptChildren s m.replies
        let s1 := kept.foldl (fun st rid => popReplies st fuel rid) s
        match listGet s1.messages id with
        | some m1 => ⟨listSet s1.messages id { m1 with replies := kept }, s1.messagesByRoom⟩
        | none => s1

/-- `MessageRepository.getMessageThread`: `populateReplies({ ...message })`.
The root is a shallow copy (`{ ...message }`), so the filtered reply list
is assigned to the copy, while the recursive processing of the surviving
children mutates the stored objects; the call therefore returns both the
thread view and the possibly changed state. -/
def getMessageThread (s : RepoState) (messageId : String) :
    Option Message × RepoState :=
  match listGet s.messages messageId with
  | none => (none, s)
  | some m =>
    if m.replies = [] then (some m, s)
    else
      let kept := keptChildren s m.replies
      let s1 := kept.foldl (fun st rid => popReplies st s.messages.length rid) s
      (some { m with replies := kept }, s1)

/-- The recursive helper `searchRecursive` of
`MessageRepository.searchMessages`: collect this message if its lowercased
text contains the (already lowercased) keyword, then recurse into every
non-deleted reply.  `fuel` bounds the recursion depth as for
`popReplies`. -/
def searchRec (s : RepoState) (kw : String) : Nat → Message → List Message
  | 0, _ => []
  | fuel + 1, m =>
    (if strIncludes (lowerString m.text) kw then [m] else []) ++
      m.replies.foldl (fun acc rid =>
        match listGet s.messages rid with
        | some r => if r.deleted then acc else acc ++ searchRec s kw fuel r
        | none => acc) []

/-- `MessageRepository.searchMessages`: run `searchRecursive` over every
message returned by `getMessagesForRoom` (the source comment claims these
are the root messages of the room, but the room index contains every
message of the room, replies included). -/
def searchMessages (s : RepoState) (keyword room : String) : List Message :=
  let lowerKeyword := lowerString keyword
  (getMessagesForRoom s room).foldl
    (fun acc m => acc ++ searchRec s lowerKeyword s.messages.length m) []

/-- The recursive helper `calculateDepth` of
`MessageRepository.getThreadDepth`: `0` for an empty reply list, else
`1 + max` over the depths of the non-deleted replies (the max accumulator
starts at `0`).  `fuel` bounds the recursion depth as above. -/
def calcDepth (s : RepoState) : Nat → Message → Int
  | 0, _ => 0
  | fuel + 1, m =>
    if m.replies = [] then 0
    else
      1 + m.replies.foldl (fun acc rid =>
        match listGet s.messages rid with
        | some r => if r.deleted then acc else max acc (calcDepth s fuel r)
        | none => acc) 0

/-- `MessageRepository.getThreadDepth`: `-1` when the id is unknown, else
`calculateDepth` on the stored message. -/
def getThreadDepth (s : RepoState) (messageId : String) : Int :=
  match listGet s.messages messageId with
  | none => -1
  | some m => calcDepth s (s.messages.length + 1) m

/-- Does `calculateDepth` complete within the given recursion depth?
True whenever `fuel` exceeds the height of the reply forest under the
message; used to state fuel-independence of `calcDepth`. -/
def depthDefined (s : RepoState) : Nat → Message → Bool
  | 0, _ => false
  | fuel + 1, m =>
    m.replies.all fun rid =>
      match listGet s.messages rid with
      | some r => r.deleted || depthDefined s fuel r
      | none => true

/-! ## The command parser (`CommandParser`) -/

/-- A parsed slash command (`ParsedCommand` in `src/types/index.ts`);
`type` is one of `edit`, `delete`, `mute`, `ban`, `reply`, `unknown`. -/
structure ParsedCommand where
  type : String
  args : List String
  raw : String
deriving Repr, DecidableEq

namespace CommandParser

/-- Token kinds of the lexer (`TokenType`). -/
inductive TokKind where
  | command
  | argument
  | strTok
  | number
  | eof
deriving Repr, DecidableEq

/-- A lexer token. -/
structure Tok where
  kind : TokKind
  value : String
deriving Repr, DecidableEq

/-- Non-whitespace in the tokenizer's sense (only space and tab separate). -/
def notSep (c : Char) : Bool := !(c = ' ' || c = '\t')

/-- The loop of `CommandParser.tokenize`.  `atStart` records whether the
scanner is at index 0 (the only place a `/` starts a COMMAND token);
`fuel` bounds the loop (every iteration consumes at least one character,
so the input length suffices).  Quote characters are recognised by code
point (34 is the double quote, 39 the single quote). -/
def tokenizeAux : Nat → List Char → Bool → List Tok
  | 0, _, _ => []
  | _, [], _ => []
  | fuel + 1, c :: rest, atStart =>
    if c = ' ' || c = '\t' then tokenizeAux fuel rest false
    else if c = '/' && atStart then
      ⟨.command, ⟨rest.takeWhile notSep⟩⟩ :: tokenizeAux fuel (rest.dropWhile notSep) false
    else if c.toNat = 34 || c.toNat = 39 then
      ⟨.strTok, ⟨rest.takeWhile (fun ch => !(ch = c))⟩⟩ ::
        tokenizeAux fuel ((rest.dropWhile (fun ch => !(ch = c))).drop 1) false
    else if '0' ≤ c && c ≤ '9' then
      ⟨.number, ⟨(c :: rest).takeWhile fun ch => '0' ≤ ch && ch ≤ '9'⟩⟩ ::
        tokenizeAux fuel ((c :: rest).dropWhile fun ch => '0' ≤ ch && ch ≤ '9') false
    else
      let arg := (c :: rest).takeWhile notSep
      (if arg.length > 0 then [(⟨.argument, ⟨arg⟩⟩ : Tok)] else []) ++
        tokenizeAux fuel ((c :: rest).dropWhile notSep) false

/-- `CommandParser.tokenize`: lexical analysis, with the trailing EOF
token. -/
def tokenize (input : String) : List Tok :=
  tokenizeAux (input.data.length + 1) input.data true ++ [⟨.eof, ""⟩]

/-- `CommandParser.buildAST`: `none` is the `INVALID_COMMAND` node,
otherwise the command keyword together with the argument values (the
children of the `COMMAND_NODE`, cut off at EOF). -/
def buildAST (tokens : List Tok) : Option (String × List String) :=
  match tokens with
  | ⟨.command, v⟩ :: rest => some (v, (rest.takeWhile fun t => !(t.kind = .eof)).map Tok.value)
  | _ => none

/-- The recognised command keywords (`validCommands`). -/
def validCommands : List String := ["edit", "delete", "mute", "ban", "reply"]

/-- `CommandParser.parse`.  `none` input stands for JS `null`/`undefined`
(`.error` is the thrown precondition failure).  Mirrors the source:
trim, the non-`/` early return, tokenize/AST, the falsy-value check on
the AST keyword, lowercasing and the keyword whitelist, and the final
postcondition check. -/
def parse (input : Option String) : JsResult ParsedCommand :=
  match input with
  | none => .thrown "Precondition violated: input cannot be null or undefined"
  | some raw =>
    let t := jsTrim raw
    if !(startsWithList t.data ['/']) then .ok ⟨"unknown", [], raw⟩
    else
      match buildAST (tokenize t) with
      | none => .ok ⟨"unknown", [], raw⟩
      | some (v, args) =>
        if v = "" then .ok ⟨"unknown", [], raw⟩
        else
          let cmdType := lowerString v
          let ty := if validCommands.any (fun c => c = cmdType) then cmdType else "unknown"
          if ty = "" then .thrown "Postcondition violated: invalid ParsedCommand structure"
          else .ok ⟨ty, args, raw⟩

/-- `CommandParser.validate`: the structural arity check. -/
def validate (command : ParsedCommand) : Bool :=
  if command.type = "edit" then command.args.length ≥ 2
  else if command.type = "delete" then command.args.length = 1
  else if command.type = "mute" || command.type = "ban" then command.args.length = 1
  else if command.type = "reply" then command.args.length ≥ 2
  else false

end CommandParser

/-! ## The moderation DSL (`ModerationDSLParser`, `ModerationRuleEngine`) -/

namespace ModerationDSL

/-- Splitting scanner for JS `String.prototype.split` with a non-empty
string separator: cut at every non-overlapping occurrence, left to
right.  `acc` is the current piece reversed; `fuel` bounds the loop
(every step consumes at least one character). -/
def splitOnListAux (sep : List Char) : Nat → List Char → List Char → List (List Char)
  | 0, acc, cs => [acc.reverse ++ cs]
  | _ + 1, acc, [] => [acc.reverse]
  | fuel + 1, acc, c :: rest =>
    if startsWithList (c :: rest) sep then
      acc.reverse :: splitOnListAux sep fuel [] ((c :: rest).drop sep.length)
    else
      splitOnListAux sep fuel (c :: acc) rest

/-- JS `s.split(sep)` for the non-empty separators this code base uses. -/
def splitOnStr (s sep : String) : List String :=
  if sep.data = [] then [s]
  else (splitOnListAux sep.data (s.data.length + 1) [] s.data).map fun l => ⟨l⟩

/-- A JS value as it occurs in rule conditions and field resolution:
either a string or a number (`string | number` in the source).  The
numbers produced by this code base are `parseFloat`s of decimal literals
and the integer-valued message statistics, so a number is embedded in
decimal fixed point as `mant / 10 ^ exp`; numeric comparisons compare the
denoted values. -/
inductive JsVal where
  | str (s : String)
  | num (mant : Int) (exp : Nat)
deriving Repr, DecidableEq

/-- Value equality of two embedded JS numbers. -/
def numEqB (m1 : Int) (e1 : Nat) (m2 : Int) (e2 : Nat) : Bool :=
  decide (m1 * 10 ^ e2 = m2 * 10 ^ e1)

/-- Value order of two embedded JS numbers. -/
def numLtB (m1 : Int) (e1 : Nat) (m2 : Int) (e2 : Nat) : Bool :=
  decide (m1 * 10 ^ e2 < m2 * 10 ^ e1)

/-- Non-strict value order of two embedded JS numbers. -/
def numLeB (m1 : Int) (e1 : Nat) (m2 : Int) (e2 : Nat) : Bool :=
  decide (m1 * 10 ^ e2 ≤ m2 * 10 ^ e1)

/-- A parsed condition (`RuleCondition`). -/
structure RuleCondition where
  field : String
  operator : String
  value : JsVal
deriving Repr, DecidableEq

/-- A parsed rule (`ParsedRule`); `logic` is `"and"` or `"or"`. -/
structure ParsedRule where
  conditions : List RuleCondition
  action : String
  logic : String
deriving Repr, DecidableEq

/-- Decimal digits to a natural number. -/
def digitsToNat (ds : List Char) : Nat :=
  ds.foldl (fun n c => n * 10 + (c.toNat - 48)) 0

/-- JS `parseFloat` restricted to decimal literals: skip leading
whitespace, optional sign, then the longest prefix `digits [. digits]`
(either part may be empty, not both); `none` is `NaN`.  (`parseFloat`
also accepts exponents and `Infinity`, which never occur in this
repository's rules.)  The result is the pair (mantissa, decimal
exponent). -/
def parseNum (s : String) : Option (Int × Nat) :=
  let cs := s.data.dropWhile isWsJs
  let neg := startsWithList cs ['-']
  let cs1 := if startsWithList cs ['-'] || startsWithList cs ['+'] then cs.drop 1 else cs
  let intPart := cs1.takeWhile Char.isDigit
  let cs2 := cs1.dropWhile Char.isDigit
  let fracPart :=
    if startsWithList cs2 ['.'] then (cs2.drop 1).takeWhile Char.isDigit else []
  if intPart = [] ∧ fracPart = [] then none
  else
    let mant : Nat := digitsToNat intPart * 10 ^ fracPart.length + digitsToNat fracPart
    some (if neg then -(mant : Int) else (mant : Int), fracPart.length)

/-- Strip every single- or double-quote character
(`value.replace(/['"]/g, '')`; code points 39 and 34). -/
def stripQuotes (s : String) : String :=
  ⟨s.data.filter fun c => !(c.toNat = 39 || c.toNat = 34)⟩

/-- One trial of the operator loop in
`ModerationDSLParser.parseCondition`: split the condition string on
`" op "` and succeed only when that yields exactly two parts; quotes are
stripped from the value and numeric values are coerced by `parseFloat`. -/
def tryOp (condStr : String) (op : String) : Option RuleCondition :=
  match splitOnStr condStr (" " ++ op ++ " ") with
  | [fieldPart, valuePart] =>
    let value := stripQuotes (jsTrim valuePart)
    some ⟨jsTrim fieldPart, op,
      match parseNum value with
      | some (m, e) => .num m e
      | none => .str value⟩
  | _ => none

/-- `ModerationDSLParser.parseCondition`: try the operators in the fixed
specificity order, first split into exactly two parts wins. -/
def parseCondition (condStr : String) : Option RuleCondition :=
  tryOp condStr "contains" <|> tryOp condStr "equals" <|> tryOp condStr "matches" <|>
    tryOp condStr ">=" <|> tryOp condStr "<=" <|> tryOp condStr ">" <|> tryOp condStr "<"

/-- JS `\w` (ASCII word character). -/
def isWordCh (c : Char) : Bool := c.isAlphanum || c = '_'

/-- Does `cs` start with `\s+then\s+\w`?  If so, return the `(\w+)`
capture (the action word).  This is the separator of the rule regex
`/when\s+(.+)\s+then\s+(\w+)/`. -/
def sepHere (cs : List Char) : Option (List Char) :=
  let cs1 := cs.dropWhile isWsJs
  if cs1.length = cs.length then none
  else if startsWithList cs1 ("then".data) then
    let cs2 := cs1.drop 4
    let cs3 := cs2.dropWhile isWsJs
    if cs3.length = cs2.length then none
    else
      let w := cs3.takeWhile isWordCh
      if w = [] then none else some w
  else none

/-- Split the region after `when\s+` at the *last* position matching the
separator `\s+then\s+(\w+)` — the greedy behaviour of the `(.+)` group of
the rule regex — returning the condition text and the action word. -/
def findThenSplit : List Char → Option (List Char × List Char)
  | [] => none
  | c :: rest =>
    match findThenSplit rest with
    | some (cond, act) => some (c :: cond, act)
    | none =>
      match sepHere (c :: rest) with
      | some act => some ([], act)
      | none => none

/-- Search for the first match of `/when\s+(.+)\s+then\s+(\w+)/`:
the earliest occurrence of `when` followed by whitespace whose remainder
contains the `then` separator (with a non-empty `(.+)` group). -/
def matchWhenThen : List Char → Option (List Char × List Char)
  | [] => none
  | c :: rest =>
    (if startsWithList (c :: rest) ("when".data) then
      let target := rest.drop 3
      let body := target.dropWhile isWsJs
      if body.length = target.length then none
      else
        match findThenSplit body with
        | some (cond, act) => if cond = [] then none else some (cond, act)
        | none => none
     else none) <|> matchWhenThen rest

/-- `ModerationDSLParser.parse`: lowercase and trim, match the
`when ... then ...` shape, pick `or` logic iff the condition clause
contains the literal `" or "`, split on the logic word, parse each
condition, and fail softly when none parses. -/
def parse (ruleString : String) : Option ParsedRule :=
  let s := jsTrim (lowerString ruleString)
  match matchWhenThen s.data with
  | none => none
  | some (condChars, actChars) =>
    let conditionPart : String := ⟨condChars⟩
    let action : String := ⟨actChars⟩
    let logic := if strIncludes conditionPart " or " then "or" else "and"
    let conditionStrings :=
      splitOnStr conditionPart (if logic = "and" then " and " else " or ")
    let conditions := conditionStrings.filterMap fun c => parseCondition (jsTrim c)
    if conditions = [] then none else some ⟨conditions, action, logic⟩

/-- `ModerationDSLParser.validate`. -/
def validate (rule : ParsedRule) : Bool :=
  let validFields := ["message", "user", "username", "word_count", "length"]
  let validOperators := ["contains", "equals", "matches", ">", "<", ">=", "<="]
  let validActions := ["mute", "ban", "delete", "warn", "flag"]
  validActions.any (fun a => a = rule.action) &&
    rule.conditions.all fun c =>
      validFields.any (fun f => f = c.field) && validOperators.any (fun o => o = c.operator)

/-- The number of maximal non-whitespace runs in a character list;
`inRun` records whether the previous character belonged to a run. -/
def countRuns : List Char → Bool → Nat
  | [], _ => 0
  | c :: rest, inRun =>
    if isWsJs c then countRuns rest false
    else (if inRun then 0 else 1) + countRuns rest true

/-- The length of `message.split(/\s+/)`: the maximal non-whitespace
runs, plus a leading empty string when the text starts with whitespace
and a trailing one when it ends with whitespace; the empty string yields
`[""]`. -/
def jsSplitWsLen (s : String) : Nat :=
  match s.data with
  | [] => 1
  | c :: rest =>
    countRuns (c :: rest) false + (if isWsJs c then 1 else 0) +
      (if isWsJs ((c :: rest).reverse.headI) then 1 else 0)

/-- Field resolution of `ModerationRuleEngine.evaluateCondition`
(`message` → lowercased text, `user`/`username` → lowercased username,
`word_count`/`length` → numbers); `none` is the `default: return false`
branch. -/
def getFieldValue (field message username : String) : Option JsVal :=
  if field = "message" then some (.str (lowerString message))
  else if field = "user" || field = "username" then some (.str (lowerString username))
  else if field = "word_count" then some (.num (jsSplitWsLen message) 0)
  else if field = "length" then some (.num message.data.length 0)
  else none

/-- The `condValue` lowering of `evaluateCondition` (strings are
lowercased, numbers kept). -/
def lowerVal : JsVal → JsVal
  | .str s => .str (lowerString s)
  | .num m e => .num m e

/-- Strip trailing decimal zeros from a fixed-point number (JS numbers
print their shortest decimal form). -/
def stripZeros : Int → Nat → Int × Nat
  | m, 0 => (m, 0)
  | m, e + 1 => if m % 10 = 0 then stripZeros (m / 10) e else (m, e + 1)

/-- JS `ToString` of a value (numbers in shortest decimal form). -/
def valToStr : JsVal → String
  | .str s => s
  | .num m e =>
    match stripZeros m e with
    | (m', 0) => toString m'
    | (m', e') =>
      let sgn := if m' < 0 then "-" else ""
      let ds := (Nat.toDigits 10 m'.natAbs)
      if ds.length ≤ e' then sgn ++ "0." ++ ⟨List.replicate (e' - ds.length) '0'⟩ ++ ⟨ds⟩
      else sgn ++ ⟨ds.take (ds.length - e')⟩ ++ "." ++ ⟨ds.drop (ds.length - e')⟩

/-- JS `ToNumber` coercion as used by the relational operators: a number
stays itself, a string is trimmed and parsed as a full decimal literal
("" is 0, otherwise `none` is `NaN`, which makes every comparison
false). -/
def jsToNumber : JsVal → Option (Int × Nat)
  | .num m e => some (m, e)
  | .str s =>
    let t := jsTrim s
    if t = "" then some (0, 0)
    else
      match parseNum t with
      | some me =>
        -- Number() requires the whole string to be numeric, unlike parseFloat
        let cs := t.data.dropWhile isWsJs
        let cs1 := if startsWithList cs ['-'] || startsWithList cs ['+'] then cs.drop 1 else cs
        let cs2 := cs1.dropWhile Char.isDigit
        let cs3 := if startsWithList cs2 ['.'] then (cs2.drop 1).dropWhile Char.isDigit else cs2
        if cs3 = [] then some me else none
      | none => none

/-- `ModerationRuleEngine.evaluateCondition`.  `rtest` stands for the JS
regular-expression engine used by `matches`: `rtest pattern` is `none`
when `new RegExp(pattern)` throws (the condition is then false) and
otherwise the compiled test.  All other operators are as in the source:
`contains` and `matches` require the field to be a string, the relational
operators require it to be a number, and `equals` is the strict `===`. -/
def evaluateCondition (rtest : String → Option (String → Bool))
    (condition : RuleCondition) (message username : String) : Bool :=
  match getFieldValue condition.field message username with
  | none => false
  | some fieldValue =>
    let condValue := lowerVal condition.value
    if condition.operator = "contains" then
      match fieldValue with
      | .str s => strIncludes s (valToStr condValue)
      | .num _ _ => false
    else if condition.operator = "equals" then
      match fieldValue, condValue with
      | .str a, .str b => decide (a = b)
      | .num m1 e1, .num m2 e2 => numEqB m1 e1 m2 e2
      | _, _ => false
    else if condition.operator = "matches" then
      match rtest (valToStr condValue) with
      | none => false
      | some f =>
        match fieldValue with
        | .str s => f s
        | .num _ _ => false
    else if condition.operator = ">" then
      match fieldValue, jsToNumber condValue with
      | .num m e, some (m2, e2) => numLtB m2 e2 m e
      | _, _ => false
    else if condition.operator = "<" then
      match fieldValue, jsToNumber condValue with
      | .num m e, some (m2, e2) => numLtB m e m2 e2
      | _, _ => false
    else if condition.operator = ">=" then
      match fieldValue, jsToNumber condValue with
      | .num m e, some (m2, e2) => numLeB m2 e2 m e
      | _, _ => false
    else if condition.operator = "<=" then
      match fieldValue, jsToNumber condValue with
      | .num m e, some (m2, e2) => numLeB m e m2 e2
      | _, _ => false
    else false

/-- `ModerationRuleEngine.evaluateRule`: evaluate every condition and
combine with the rule's logic (`and` = all, `or` = any). -/
def evaluateRule (rtest : String → Option (String → Bool))
    (rule : ParsedRule) (message username : String) : Bool :=
  let results := rule.conditions.map fun c => evaluateCondition rtest c message username
  if rule.logic = "and" then results.all (fun r => r) else results.any (fun r => r)

end ModerationDSL

/-! ## The user registry (`UserRepository`) -/

namespace UserRepository

/-- An active user (`User` in `src/types/index.ts`); `role` is one of
`admin`, `moderator`, `user`. -/
structure UserRec where
  id : String
  username : String
  room : String
  role : String
  muted : Bool
  banned : Bool
deriving Repr, DecidableEq

/-- `UserJoinResult`: either the error message or the created user. -/
inductive JoinOut where
  | err (msg : String)
  | joined (u : UserRec)
deriving Repr, DecidableEq

/-- Private representation of `UserRepository`: users by socket id and
the lowercased-username index. -/
structure UserRepoState where
  users : List (String × UserRec)
  usernameIndex : List (String × String)
deriving Repr, DecidableEq

/-- The empty registry. -/
def emptyUsers : UserRepoState := ⟨[], []⟩

/-- `UserRepository.checkRep` as a boolean: unique socket ids, unique
lowercased usernames, non-empty rooms, index sizes equal. -/
def userCheckRepB (s : UserRepoState) : Bool :=
  nodupB (s.users.map Prod.fst) &&
    nodupB (s.users.map fun p => lowerString p.2.username) &&
    s.users.all (fun p => !(p.2.room = "")) &&
    decide (s.usernameIndex.length = s.users.length)

/-- `UserRepository.userJoin`: precondition throws (empty arguments,
socket id already in use), the case-insensitive duplicate-username check
returning the error value, then insertion into both indices and
`checkRep`. -/
def userJoin (s : UserRepoState) (id username room role : String) :
    JsResult JoinOut × UserRepoState :=
  if id = "" then (.thrown "Precondition violated: id must be non-empty", s)
  else if username = "" then
    (.thrown "Precondition violated: username must be non-empty", s)
  else if room = "" then
    (.thrown "Precondition violated: room must be non-empty", s)
  else if (listGet s.users id).isSome then
    (.thrown "Precondition violated: socket ID already in use", s)
  else
    let lowerUsername := lowerString username
    if (listGet s.usernameIndex lowerUsername).isSome then
      (.ok (.err "Username is already taken"), s)
    else
      let user : UserRec := ⟨id, username, room, role, false, false⟩
      let s' : UserRepoState :=
        ⟨listSet s.users id user, listSet s.usernameIndex lowerUsername id⟩
      if userCheckRepB s' then (.ok (.joined user), s')
      else (.thrown "Invariant violation", s')

/-- `UserRepository.getCurrentUser`. -/
def getCurrentUser (s : UserRepoState) (id : String) : Option UserRec :=
  listGet s.users id

/-- `UserRepository.userLeave`: remove the user from both indices (a
no-op returning `undefined` when the socket id is unknown). -/
def userLeave (s : UserRepoState) (id : String) :
    JsResult (Option UserRec) × UserRepoState :=
  match listGet s.users id with
  | none => (.ok none, s)
  | some user =>
    let s' : UserRepoState :=
      ⟨eraseKey s.users id, eraseKey s.usernameIndex (lowerString user.username)⟩
    if userCheckRepB s' then (.ok (some user), s')
    else (.thrown "Invariant violation", s')

/-- The cardinality-consistency the registry maintains: equal index
sizes and, for every user, the username index maps their lowercased
username back to their socket id. -/
def consistentB (s : UserRepoState) : Bool :=
  decide (s.usernameIndex.length = s.users.length) &&
    s.users.all fun p => decide (listGet s.usernameIndex (lowerString p.2.username) = some p.1)

end UserRepository

/-! ## Concrete repository states used by individual claims -/

/-- Convenience: the state after an `addMessage` call (display time fixed
to `"tm"`; the id and timestamp are the call's ambient inputs). -/
def addM (s : RepoState) (u t r : String) (p : Option String) (id : String)
    (n : Nat) : RepoState :=
  (addMessage s u t r p id n "tm").2

/-- The thread of the search-linearity test: one root, five first-level
replies (`Reply i`), three nested replies under each (`Nested j`), built
through `addMessage` with increasing timestamps. -/
def c1State : RepoState :=
  let s := addM emptyRepo "user1" "Root" "room1" none "m" 1
  let s := addM s "u1" "Reply 1" "room1" (some "m") "r1" 2
  let s := addM s "w" "Nested 1" "room1" (some "r1") "n11" 3
  let s := addM s "w" "Nested 2" "room1" (some "r1") "n12" 4
  let s := addM s "w" "Nested 3" "room1" (some "r1") "n13" 5
  let s := addM s "u2" "Reply 2" "room1" (some "m") "r2" 6
  let s := addM s "w" "Nested 1" "room1" (some "r2") "n21" 7
  let s := addM s "w" "Nested 2" "room1" (some "r2") "n22" 8
  let s := addM s "w" "Nested 3" "room1" (some "r2") "n23" 9
  let s := addM s "u3" "Reply 3" "room1" (some "m") "r3" 10
  let s := addM s "w" "Nested 1" "room1" (some "r3") "n31" 11
  let s := addM s "w" "Nested 2" "room1" (some "r3") "n32" 12
  let s := addM s "w" "Nested 3" "room1" (some "r3") "n33" 13
  let s := addM s "u4" "Reply 4" "room1" (some "m") "r4" 14
  let s := addM s "w" "Nested 1" "room1" (some "r4") "n41" 15
  let s := addM s "w" "Nested 2" "room1" (some "r4") "n42" 16
  let s := addM s "w" "Nested 3" "room1" (some "r4") "n43" 17
  let s := addM s "u5" "Reply 5" "room1" (some "m") "r5" 18
  let s := addM s "w" "Nested 1" "room1" (some "r5") "n51" 19
  let s := addM s "w" "Nested 2" "room1" (some "r5") "n52" 20
  let s := addM s "w" "Nested 3" "room1" (some "r5") "n53" 21
  s

/-- Root → child → grandchild, then the grandchild soft-deleted by its
author: the state feeding the `getMessageThread` frame analysis. -/
def c2State : RepoState :=
  (deleteMessage
    (addM (addM (addM emptyRepo "alice" "root message" "room1" none "a" 1)
        "bob" "child message" "room1" (some "a") "b" 2)
      "carol" "grand message" "room1" (some "b") "c" 3)
    "c" "carol").2

/-- A root whose only reply has been soft-deleted. -/
def c3State : RepoState :=
  (deleteMessage
    (addM (addM emptyRepo "alice" "root" "room1" none "m1" 1)
      "bob" "reply" "room1" (some "m1") "m2" 2)
    "m2" "bob").2

/-- A single message by `alice`, soft-deleted by `alice`. -/
def c4State : RepoState :=
  (deleteMessage (addM emptyRepo "alice" "original" "room1" none "m1" 1)
    "m1" "alice").2

/-! ## Claim C1 -/

/-- C1 (code bug evidence): on the 1 + 5 + 5×3 thread with the keyword
occurring exactly in the five first-level replies, `searchMessages`
returns 10 results — every matching first-level reply twice, once while
descending from the root and once more as its own starting point, because
`getMessagesForRoom` returns every message of the room (replies
included), not only the roots the source comment claims.  The claim (and
the repository's own test) expects exactly 5. -/
theorem c1_searchMessages_not_linear :
    c1State.messages.length = 21 ∧
    (searchMessages c1State "Reply" "room1").map Message.id =
      ["r1", "r2", "r3", "r4", "r5", "r1", "r2", "r3", "r4", "r5"] ∧
    (searchMessages c1State "Reply" "room1").length = 10 ∧
    ¬((searchMessages c1State "Reply" "room1").length = 5) := by decide

/-! ## Claim C2 -/

/-- C2 (code bug evidence): `getMessageThread` of the root mutates the
store.  Before the call the stored child `b` lists its deleted child `c`
in its reply list; after the call `c` is still present (and deleted) in
the authoritative index, but it has been removed from the *stored* `b`'s
reply list — the recursive filter ran on the shared child objects, only
the root was (shallowly) copied. -/
theorem c2_getMessageThread_mutates_store :
    (listGet c2State.messages "b").map Message.replies = some ["c"] ∧
    (listGet c2State.messages "c").map Message.deleted = some true ∧
    (getMessageThread c2State "a").2.messages.map Prod.fst =
      c2State.messages.map Prod.fst ∧
    (listGet (getMessageThread c2State "a").2.messages "c").map Message.deleted =
      some true ∧
    (listGet (getMessageThread c2State "a").2.messages "b").map Message.replies =
      some [] ∧
    ¬((getMessageThread c2State "a").2 = c2State) := by decide

/-! ## Claim C7 -/

/-- C7: `parse('/edit 123 "multi word text"')` yields type `edit` with
arguments `['123', 'multi word text']`; `parse('')` and `parse('/')`
yield type `unknown` with no arguments; `parse(null)` throws the
precondition (InvalidArgument) error. -/
theorem c7_command_parser_cases :
    CommandParser.parse (some "/edit 123 \"multi word text\"") =
      .ok ⟨"edit", ["123", "multi word text"], "/edit 123 \"multi word text\""⟩ ∧
    CommandParser.parse (some "") = .ok ⟨"unknown", [], ""⟩ ∧
    CommandParser.parse (some "/") = .ok ⟨"unknown", [], "/"⟩ ∧
    CommandParser.parse none =
      .thrown "Precondition violated: input cannot be null or undefined" := by decide

/-! ## Claim C3 -/

/-- C3 counterexample: `m1` exists and has no non-deleted replies (its
only reply `m2` is deleted), yet `getThreadDepth` returns 1, not the 0
the claim states — the code's base case tests for an *empty* reply list,
and the max-accumulator starts at 0 even when every reply is skipped. -/
theorem c3_counterexample :
    (listGet c3State.messages "m1").map Message.replies = some ["m2"] ∧
    (listGet c3State.messages "m2").map Message.deleted = some true ∧
    getThreadDepth c3State "m1" = 1 ∧
    ¬(getThreadDepth c3State "m1" = 0) := by decide

/-! ## Claim C4 -/

/-- C4 counterexample: for a stored (deleted) message, an edit attempt by
a non-author does *not* return null — the deleted-state precondition is
checked before authorization and throws. -/
theorem c4_counterexample :
    (listGet c4State.messages "m1").map Message.username = some "alice" ∧
    (listGet c4State.messages "m1").map Message.deleted = some true ∧
    (editMessage c4State "m1" "new text" "bob" 5 "tm").1 =
      .thrown "Precondition violated: cannot edit deleted message" := by decide

/-! ## Claim C8 -/

/-- C8 counterexample: the condition `message equals "123"` parses with
its value coerced to the number 123, but evaluated against a message
whose text is the numeral `123` it is *false*: `equals` is the strict
`===`, which never equates the string field with the numeric value (the
claim asserts loose cross-type comparison making it true). -/
theorem c8_counterexample :
    ModerationDSL.parse "when message equals \"123\" then delete" =
      some ⟨[⟨"message", "equals", .num 123 0⟩], "delete", "and"⟩ ∧
    ModerationDSL.evaluateCondition (fun _ => none)
      ⟨"message", "equals", .num 123 0⟩ "123" "alice" = false ∧
    ModerationDSL.evaluateRule (fun _ => none)
      ⟨[⟨"message", "equals", .num 123 0⟩], "delete", "and"⟩ "123" "alice" = false := by decide

/-! ## Association-list and invariant lemmas -/

theorem listGet_listSet_self {α : Type} (l : List (String × α)) (k : String) (v : α) :
    listGet (listSet l k v) k = some v := by
  induction l with
  | nil => simp [listSet, listGet]
  | cons p rest ih =>
    obtain ⟨k', v'⟩ := p
    by_cases h : k' = k
    · simp [listSet, h, listGet]
    · simp [listSet, h, listGet, ih]

theorem listGet_listSet_ne {α : Type} (l : List (String × α)) (k k'' : String) (v : α)
    (hne : ¬(k'' = k)) : listGet (listSet l k v) k'' = listGet l k'' := by
  have hne' : ¬(k = k'') := fun h => hne h.symm
  induction l with
  | nil => simp [listSet, listGet, hne']
  | cons p rest ih =>
    obtain ⟨k', v'⟩ := p
    by_cases h : k' = k
    · subst h
      simp [listSet, listGet, hne']
    · by_cases h2 : k' = k''
      · simp [listSet, h, listGet, h2, hne]
      · simp [listSet, h, listGet, h2, ih]

theorem map_fst_listSet_of_get_some {α : Type} (l : List (String × α)) (k : String)
    (v w : α) (h : listGet l k = some w) :
    (listSet l k v).map Prod.fst = l.map Prod.fst := by
  induction l with
  | nil => simp [listGet] at h
  | cons p rest ih =>
    obtain ⟨k', v'⟩ := p
    by_cases hk : k' = k
    · subst hk
      simp [listSet]
    · simp [listGet, hk] at h
      simp [listSet, hk, ih h]

theorem map_fst_listSet_of_get_none {α : Type} (l : List (String × α)) (k : String)
    (v : α) (h : listGet l k = none) :
    (listSet l k v).map Prod.fst = l.map Prod.fst ++ [k] := by
  induction l with
  | nil => simp [listSet]
  | cons p rest ih =>
    obtain ⟨k', v'⟩ := p
    by_cases hk : k' = k
    · simp [listGet, hk] at h
    · simp [listGet, hk] at h
      simp [listSet, hk, ih h]

theorem length_listSet_of_get_none {α : Type} (l : List (String × α)) (k : String)
    (v : α) (h : listGet l k = none) : (listSet l k v).length = l.length + 1 := by
  have := map_fst_listSet_of_get_none l k v h
  have h1 : ((listSet l k v).map Prod.fst).length = (l.map Prod.fst ++ [k]).length := by
    rw [this]
  simpa using h1

theorem length_eraseKey_of_get_some {α : Type} (l : List (String × α)) (k : String)
    (v : α) (h : listGet l k = some v) : (eraseKey l k).length + 1 = l.length := by
  induction l with
  | nil => simp [listGet] at h
  | cons p rest ih =>
    obtain ⟨k', v'⟩ := p
    by_cases hk : k' = k
    · simp [eraseKey, hk]
    · simp [listGet, hk] at h
      simp [eraseKey, hk, ih h]

theorem all_of_listGet {α : Type} (l : List (String × α)) (k : String) (v : α)
    (f : String × α → Bool) (h : listGet l k = some v) (ha : l.all f = true) :
    f (k, v) = true := by
  induction l with
  | nil => simp [listGet] at h
  | cons p rest ih =>
    obtain ⟨k', v'⟩ := p
    simp only [List.all_cons, Bool.and_eq_true] at ha
    by_cases hk : k' = k
    · simp [listGet, hk] at h
      subst hk
      cases h
      exact ha.1
    · simp [listGet, hk] at h
      exact ih h ha.2

theorem all_listSet_of {α : Type} (l : List (String × α)) (k : String) (v : α)
    (f : String × α → Bool) (ha : l.all f = true) (hv : f (k, v) = true) :
    (listSet l k v).all f = true := by
  induction l with
  | nil => simpa [listSet]
  | cons p rest ih =>
    obtain ⟨k', v'⟩ := p
    simp only [List.all_cons, Bool.and_eq_true] at ha
    by_cases hk : k' = k
    · simp [listSet, hk, List.all_cons, hv, ha.2]
    · simp only [listSet, hk, if_false, List.all_cons, Bool.and_eq_true]
      exact ⟨ha.1, ih ha.2⟩

theorem keys_any_eq_false_of_get_none {α : Type} (l : List (String × α)) (k : String)
    (h : listGet l k = none) : (l.map Prod.fst).any (fun y => y = k) = false := by
  induction l with
  | nil => simp
  | cons p rest ih =>
    obtain ⟨k', v'⟩ := p
    by_cases hk : k' = k
    · simp [listGet, hk] at h
    · simp [listGet, hk] at h
      simp [hk, ih h]

theorem any_append_one (l : List String) (k : String) (f : String → Bool) :
    (l ++ [k]).any f = (l.any f || f k) := by
  induction l with
  | nil => simp
  | cons x xs ih => simp [ih, Bool.or_assoc]

theorem nodupB_append_singleton (l : List String) (k : String) (h : nodupB l = true)
    (hk : l.any (fun y => y = k) = false) : nodupB (l ++ [k]) = true := by
  induction l with
  | nil => rfl
  | cons x xs ih =>
    simp only [nodupB, Bool.and_eq_true, Bool.not_eq_true'] at h
    simp only [List.any_cons, Bool.or_eq_false_iff] at hk
    simp only [List.cons_append, nodupB, Bool.and_eq_true, Bool.not_eq_true']
    refine ⟨?_, ih h.2 hk.2⟩
    simp only [List.append_eq]
    rw [any_append_one]
    simp only [h.1, Bool.false_or]
    simp only [decide_eq_false_iff_not] at hk ⊢
    exact fun he => hk.1 he.symm

theorem any_append_two (l1 l2 : List String) (f : String → Bool) :
    (l1 ++ l2).any f = (l1.any f || l2.any f) := by
  induction l1 with
  | nil => simp
  | cons x xs ih => simp [ih, Bool.or_assoc]

theorem parentOkB_append (keys ks2 : List String) (po : Option String)
    (h : parentOkB keys po = true) : parentOkB (keys ++ ks2) po = true := by
  cases po with
  | none => rfl
  | some p =>
    simp only [parentOkB, Bool.or_eq_true] at h ⊢
    rcases h with h | h
    · exact Or.inl h
    · right
      rw [any_append_two]
      simp [h]

theorem msgOkB_append (keys ks2 : List String) (m : Message)
    (h : msgOkB keys m = true) : msgOkB (keys ++ ks2) m = true := by
  unfold msgOkB at h ⊢
  simp only [Bool.and_eq_true] at h ⊢
  exact ⟨⟨h.1.1, h.1.2⟩, parentOkB_append keys ks2 m.parentId h.2⟩

theorem msgOk_of_checkRep (s : RepoState) (id : String) (m : Message)
    (hget : listGet s.messages id = some m) (hrep : checkRepB s = true) :
    msgOkB (s.messages.map Prod.fst) m = true := by
  unfold checkRepB at hrep
  simp only [Bool.and_eq_true] at hrep
  exact all_of_listGet _ _ _ _ hget hrep.2

theorem checkRepB_set (s : RepoState) (id : String) (m m' : Message)
    (rooms : List (String × List String))
    (hget : listGet s.messages id = some m) (hrep : checkRepB s = true)
    (hok : msgOkB (s.messages.map Prod.fst) m' = true) :
    checkRepB ⟨listSet s.messages id m', rooms⟩ = true := by
  unfold checkRepB at hrep ⊢
  simp only [Bool.and_eq_true] at hrep ⊢
  have hkeys := map_fst_listSet_of_get_some s.messages id m' m hget
  constructor
  · simpa [hkeys] using hrep.1
  · have : (listSet s.messages id m').all
        (fun p => msgOkB (s.messages.map Prod.fst) p.2) = true :=
      all_listSet_of _ _ _ _ hrep.2 hok
    simpa [hkeys] using this

theorem mem_insertByTs (a b : Message) (l : List Message) :
    b ∈ insertByTs a l ↔ b = a ∨ b ∈ l := by
  induction l with
  | nil => simp [insertByTs]
  | cons x xs ih =>
    by_cases h : x.timestamp ≤ a.timestamp
    · simp only [insertByTs, h, if_true, List.mem_cons, ih]
      tauto
    · simp only [insertByTs, h, if_false, List.mem_cons]

theorem mem_sortByTs (a : Message) (l : List Message) :
    a ∈ sortByTs l ↔ a ∈ l := by
  unfold sortByTs
  induction l with
  | nil => simp
  | cons x xs ih =>
    simp only [List.foldr_cons, mem_insertByTs, List.mem_cons, ih]

theorem msgOkB_congr (keys : List String) (m m' : Message)
    (h1 : m'.timestamp = m.timestamp) (h2 : m'.editHistory = m.editHistory)
    (h3 : m'.parentId = m.parentId) : msgOkB keys m' = msgOkB keys m := by
  unfold msgOkB
  rw [h1, h2, h3]

/-! ## Claim C4 (amended) -/

/-- C4 amended: for every stored *non-deleted* message `m` and requester
`u` other than the author, `editMessage` (with a non-empty new text)
returns null and `deleteMessage` returns false, neither throws, and the
state — hence `m`'s text, `edited`/`deleted` flags and edit history — is
returned exactly unchanged.  (For a deleted message the edit call throws
instead, see the counterexample; empty ids/new texts also throw by
precondition.) -/
theorem c4_nonauthor_amended (s : RepoState) (id nt u : String) (now : Nat)
    (tm : String) (m : Message) (hid : ¬(id = ""))
    (hget : getMessage s id = some m) (hnd : m.deleted = false)
    (hnt : ¬(nt = "")) (hu : ¬(u = m.username)) :
    editMessage s id nt u now tm = (.ok none, s) ∧
      deleteMessage s id u = (.ok false, s) := by
  have hget' : listGet s.messages id = some m := hget
  have hu' : ¬(m.username = u) := fun h => hu h.symm
  constructor
  · simp [editMessage, hid, hnt, hget', hnd, hu']
  · simp [deleteMessage, hid, hget', hu']

/-- The single non-deleted message feeding the C4 witness. -/
def c4WitState : RepoState := addM emptyRepo "alice" "hello" "room1" none "m1" 1

/-- Witness instantiating `c4_nonauthor_amended` at a concrete store. -/
theorem c4_nonauthor_amended_witness :
    editMessage c4WitState "m1" "new" "bob" 5 "tm" = (.ok none, c4WitState) ∧
      deleteMessage c4WitState "m1" "bob" = (.ok false, c4WitState) :=
  c4_nonauthor_amended c4WitState "m1" "new" "bob" 5 "tm"
    ⟨"m1", "alice", "hello", "tm", 1, "room1", false, [], false, none, []⟩
    (by decide) (by decide) (by decide) (by decide) (by decide)

/-! ## Claim C5 -/

/-- C5: after a delete by the author succeeds, the record is still
returned by `getMessage` (never removed from the index), its `deleted`
flag is true and its text is the fixed placeholder `[Message deleted]`;
a subsequent delete by a non-author returns false and changes nothing. -/
theorem c5_delete_soft (s : RepoState) (id u v : String) (m : Message)
    (hrep : checkRepB s = true) (hid : ¬(id = ""))
    (hget : getMessage s id = some m) (hu : u = m.username)
    (hv : ¬(v = m.username)) :
    (deleteMessage s id u).1 = .ok true ∧
    getMessage (deleteMessage s id u).2 id =
      some { m with deleted := true, text := "[Message deleted]" } ∧
    deleteMessage (deleteMessage s id u).2 id v =
      (.ok false, (deleteMessage s id u).2) := by
  have hget' : listGet s.messages id = some m := hget
  set m' : Message := { m with deleted := true, text := "[Message deleted]" } with hm'
  have hok : msgOkB (s.messages.map Prod.fst) m' = true := by
    rw [msgOkB_congr _ m m' rfl rfl rfl]
    exact msgOk_of_checkRep s id m hget' hrep
  have hrep' : checkRepB ⟨listSet s.messages id m', s.messagesByRoom⟩ = true :=
    checkRepB_set s id m m' s.messagesByRoom hget' hrep hok
  have hdel : deleteMessage s id u =
      (.ok true, ⟨listSet s.messages id m', s.messagesByRoom⟩) := by
    simp [deleteMessage, hid, hget', hu, hrep', hm']
  have hget2 : listGet (listSet s.messages id m') id = some m' :=
    listGet_listSet_self s.messages id m'
  have hv' : ¬(m'.username = v) := by
    have : m'.username = m.username := rfl
    rw [this]
    exact fun h => hv h.symm
  refine ⟨by rw [hdel], ?_, ?_⟩
  · rw [hdel]
    exact hget2
  · rw [hdel]
    simp [deleteMessage, hid, hget2, hv']

/-- The single message by `alice` feeding the C5 witness. -/
def c5WitState : RepoState := addM emptyRepo "alice" "hello" "room1" none "m1" 1

/-- Witness instantiating `c5_delete_soft` at a concrete store. -/
theorem c5_delete_soft_witness :
    (deleteMessage c5WitState "m1" "alice").1 = .ok true ∧
    getMessage (deleteMessage c5WitState "m1" "alice").2 "m1" =
      some ⟨"m1", "alice", "[Message deleted]", "tm", 1, "room1", false, [], true, none, []⟩ ∧
    deleteMessage (deleteMessage c5WitState "m1" "alice").2 "m1" "bob" =
      (.ok false, (deleteMessage c5WitState "m1" "alice").2) :=
  c5_delete_soft c5WitState "m1" "alice" "bob"
    ⟨"m1", "alice", "hello", "tm", 1, "room1", false, [], false, none, []⟩
    (by decide) (by decide) (by decide) (by decide) (by decide)

/-! ## Claim C6 -/

/-- Chronological check relative to a lower bound: every timestamp is at
least the bound and the list ascends. -/
def chronFromB : Nat → List MessageEdit → Bool
  | _, [] => true
  | t, e :: rest => (t ≤ e.timestamp) && chronFromB e.timestamp rest

/-- The timestamp of the last entry (the bound itself for an empty
list). -/
def lastTs : Nat → List MessageEdit → Nat
  | t, [] => t
  | _, e :: rest => lastTs e.timestamp rest

theorem chronB_of_chronFromB (l : List MessageEdit) :
    ∀ t, chronFromB t l = true → chronB l = true := by
  induction l with
  | nil => intro t _; rfl
  | cons e rest ih =>
    intro t h
    simp only [chronFromB, Bool.and_eq_true] at h
    cases rest with
    | nil => rfl
    | cons e2 rest2 =>
      have h2 := h.2
      simp only [chronFromB, Bool.and_eq_true] at h2
      simp only [chronB, Bool.and_eq_true]
      exact ⟨h2.1, ih e.timestamp h.2⟩

theorem chronFromB_snoc (l : List MessageEdit) :
    ∀ (t : Nat) (e : MessageEdit), chronFromB t l = true →
      lastTs t l ≤ e.timestamp → chronFromB t (l ++ [e]) = true := by
  induction l with
  | nil =>
    intro t e _ hle
    simp only [List.nil_append, chronFromB, Bool.and_eq_true]
    exact ⟨decide_eq_true hle, trivial⟩
  | cons e1 rest ih =>
    intro t e h hle
    simp only [chronFromB, Bool.and_eq_true, List.cons_append] at h ⊢
    exact ⟨h.1, ih e1.timestamp e h.2 (by simpa [lastTs] using hle)⟩

theorem lastTs_snoc (l : List MessageEdit) :
    ∀ (t : Nat) (e : MessageEdit), lastTs t (l ++ [e]) = e.timestamp := by
  induction l with
  | nil => intro t e; rfl
  | cons e1 rest ih => intro t e; simpa [lastTs] using ih e1.timestamp e

/-- The message update performed by a successful `editMessage`: the
previous `{text, timestamp, time}` is pushed onto the edit history, the
text replaced, `edited` set, and the time stamps refreshed. -/
def editedMsg (m : Message) (nt : String) (now : Nat) (tm : String) : Message :=
  { m with
    text := nt
    edited := true
    time := tm
    timestamp := now
    editHistory := m.editHistory ++ [⟨m.text, m.timestamp, m.time⟩] }

/-- One successful `editMessage` step: for a stored, non-deleted message
edited by its author with a non-empty text at a time no earlier than its
timestamp, the call returns the updated message (old text pushed onto the
history, `edited` set, text replaced, timestamp refreshed) and the state
with only that entry updated; the representation invariant and the
chronology bound are preserved. -/
theorem editStep (s : RepoState) (id nt : String) (now : Nat) (tm : String)
    (m : Message) (hrep : checkRepB s = true) (hid : ¬(id = ""))
    (hget : listGet s.messages id = some m) (hdel : m.deleted = false)
    (hnt : ¬(nt = "")) (hnow : m.timestamp ≤ now)
    (hinv : chronFromB 0 m.editHistory = true)
    (hlast : lastTs 0 m.editHistory ≤ m.timestamp) :
    editMessage s id nt m.username now tm =
      (.ok (some (editedMsg m nt now tm)),
        ⟨listSet s.messages id (editedMsg m nt now tm), s.messagesByRoom⟩) ∧
    checkRepB ⟨listSet s.messages id (editedMsg m nt now tm), s.messagesByRoom⟩ = true := by
  have hmok := msgOk_of_checkRep s id m hget hrep
  simp only [msgOkB, Bool.and_eq_true] at hmok
  have hts : (0 : Nat) < now := lt_of_lt_of_le (of_decide_eq_true hmok.1.1) hnow
  have hchron' : chronFromB 0 (m.editHistory ++ [⟨m.text, m.timestamp, m.time⟩]) = true :=
    chronFromB_snoc m.editHistory 0 _ hinv hlast
  have hok : msgOkB (s.messages.map Prod.fst) (editedMsg m nt now tm) = true := by
    simp only [msgOkB, editedMsg, Bool.and_eq_true]
    exact ⟨⟨decide_eq_true hts, chronB_of_chronFromB _ 0 hchron'⟩, hmok.2⟩
  have hrep' : checkRepB
      ⟨listSet s.messages id (editedMsg m nt now tm), s.messagesByRoom⟩ = true :=
    checkRepB_set s id m (editedMsg m nt now tm) s.messagesByRoom hget hrep hok
  refine ⟨?_, hrep'⟩
  simp only [editedMsg, hdel] at hrep' ⊢
  simp [editMessage, hid, hnt, hget, hdel, hrep']

/-- Fold a sequence of `editMessage` calls (new text, `Date.now()`,
display time) over the store. -/
def runEdits (id user : String) : RepoState → List (String × Nat × String) → RepoState
  | s, [] => s
  | s, (nt, now, tm) :: rest => runEdits id user (editMessage s id nt user now tm).2 rest

/-- A non-decreasing clock: each edit's `Date.now()` is at least the
previous one (starting from the message's current timestamp). -/
def clockOkB : Nat → List (String × Nat × String) → Bool
  | _, [] => true
  | t, (_, now, _) :: rest => (t ≤ now) && clockOkB now rest

theorem runEditsChron (id u : String) (edits : List (String × Nat × String)) :
    ∀ (s : RepoState) (m : Message), checkRepB s = true → ¬(id = "") →
      listGet s.messages id = some m → m.deleted = false → u = m.username →
      chronFromB 0 m.editHistory = true → lastTs 0 m.editHistory ≤ m.timestamp →
      clockOkB m.timestamp edits = true →
      edits.all (fun e => !(e.1 = "")) = true →
      ∃ m', listGet (runEdits id u s edits).messages id = some m' ∧
        chronFromB 0 m'.editHistory = true ∧ m'.username = m.username := by
  induction edits with
  | nil =>
    intro s m _ _ hget _ _ hinv _ _ _
    exact ⟨m, hget, hinv, rfl⟩
  | cons e rest ih =>
    intro s m hrep hid hget hdel hu hinv hlast hclock htxt
    obtain ⟨nt, now, tm⟩ := e
    subst hu
    simp only [clockOkB, Bool.and_eq_true] at hclock
    simp only [List.all_cons, Bool.and_eq_true] at htxt
    have hnt : ¬(nt = "") := by simpa using htxt.1
    have hnow : m.timestamp ≤ now := of_decide_eq_true hclock.1
    have hstep := editStep s id nt now tm m hrep hid hget hdel hnt hnow hinv hlast
    have hrun : runEdits id m.username s ((nt, now, tm) :: rest) =
        runEdits id m.username
          ⟨listSet s.messages id (editedMsg m nt now tm), s.messagesByRoom⟩ rest := by
      simp only [runEdits, hstep.1]
    rw [hrun]
    have hget' : listGet (listSet s.messages id (editedMsg m nt now tm)) id =
        some (editedMsg m nt now tm) :=
      listGet_listSet_self s.messages id (editedMsg m nt now tm)
    have hdel' : (editedMsg m nt now tm).deleted = false := by
      simp [editedMsg, hdel]
    have hinv' : chronFromB 0 (editedMsg m nt now tm).editHistory = true := by
      simp only [editedMsg]
      exact chronFromB_snoc m.editHistory 0 _ hinv hlast
    have hlast' : lastTs 0 (editedMsg m nt now tm).editHistory ≤
        (editedMsg m nt now tm).timestamp := by
      simp only [editedMsg]
      rw [lastTs_snoc]
      exact hnow
    have hclock' : clockOkB (editedMsg m nt now tm).timestamp rest = true := by
      simpa only [editedMsg] using hclock.2
    obtain ⟨m', hm1, hm2, hm3⟩ :=
      ih ⟨listSet s.messages id (editedMsg m nt now tm), s.messagesByRoom⟩
        (editedMsg m nt now tm) hstep.2 hid hget' hdel' rfl hinv' hlast' hclock' htxt.2
    exact ⟨m', hm1, hm2, hm3⟩

/-- C6: a successful edit by the author pushes the previous
`{text, timestamp, time}` onto the edit history, sets `edited`, replaces
the text and refreshes the timestamps (the first conjunct, via
`editedMsg`); and after any sequence of successful edits under a
non-decreasing clock, the stored message's edit history timestamps are
non-decreasing (`chronB`). -/
theorem c6_edit_history_chron (s : RepoState) (id u nt : String) (now : Nat)
    (tm : String) (m : Message) (edits : List (String × Nat × String))
    (hrep : checkRepB s = true) (hid : ¬(id = ""))
    (hget : getMessage s id = some m) (hdel : m.deleted = false)
    (hu : u = m.username)
    (hinv : chronFromB 0 m.editHistory = true)
    (hlast : lastTs 0 m.editHistory ≤ m.timestamp)
    (hclock : clockOkB m.timestamp edits = true)
    (htxt : edits.all (fun e => !(e.1 = "")) = true)
    (hnt : ¬(nt = "")) (hnow : m.timestamp ≤ now) :
    editMessage s id nt u now tm =
      (.ok (some (editedMsg m nt now tm)),
        ⟨listSet s.messages id (editedMsg m nt now tm), s.messagesByRoom⟩) ∧
    (getMessage (runEdits id u s edits) id).map
      (fun m' => chronB m'.editHistory) = some true := by
  subst hu
  constructor
  · exact (editStep s id nt now tm m hrep hid hget hdel hnt hnow hinv hlast).1
  · obtain ⟨m', hm1, hm2, _⟩ :=
      runEditsChron id m.username edits s m hrep hid hget hdel rfl hinv hlast hclock htxt
    unfold getMessage
    rw [hm1]
    simp [chronB_of_chronFromB _ 0 hm2]

/-- The single message by `alice` feeding the C6 witness. -/
def c6WitState : RepoState := addM emptyRepo "alice" "v1" "room1" none "m1" 1

/-- Witness instantiating `c6_edit_history_chron` at a concrete store and
a concrete two-edit sequence. -/
theorem c6_edit_history_chron_witness :
    editMessage c6WitState "m1" "v2" "alice" 2 "t2" =
      (.ok (some (editedMsg ⟨"m1", "alice", "v1", "tm", 1, "room1", false, [], false, none, []⟩
          "v2" 2 "t2")),
        ⟨listSet c6WitState.messages "m1"
          (editedMsg ⟨"m1", "alice", "v1", "tm", 1, "room1", false, [], false, none, []⟩
            "v2" 2 "t2"),
          c6WitState.messagesByRoom⟩) ∧
    (getMessage (runEdits "m1" "alice" c6WitState [("v2", 2, "t2"), ("v3", 3, "t3")]) "m1").map
      (fun m' => chronB m'.editHistory) = some true :=
  c6_edit_history_chron c6WitState "m1" "alice" "v2" 2 "t2"
    ⟨"m1", "alice", "v1", "tm", 1, "room1", false, [], false, none, []⟩
    [("v2", 2, "t2"), ("v3", 3, "t3")]
    (by decide) (by decide) (by decide) (by decide) (by decide) (by decide)
    (by decide) (by decide) (by decide) (by decide) (by decide)

/-! ## Claim C10 -/

theorem all_imp {α : Type} (l : List α) (f g : α → Bool)
    (h : ∀ a, f a = true → g a = true) (ha : l.all f = true) : l.all g = true := by
  simp only [List.all_eq_true] at ha ⊢
  exact fun a hx => h a (ha a hx)

theorem keys_any_eq_true_of_get_some {α : Type} (l : List (String × α)) (k : String)
    (v : α) (h : listGet l k = some v) :
    (l.map Prod.fst).any (fun y => y = k) = true := by
  induction l with
  | nil => simp [listGet] at h
  | cons p rest ih =>
    obtain ⟨k', v'⟩ := p
    by_cases hk : k' = k
    · simp [hk]
    · simp [listGet, hk] at h
      simp [hk, ih h]

theorem mem_setAdd_self (xs : List String) (x : String) : x ∈ setAdd xs x := by
  unfold setAdd
  by_cases h : x ∈ xs
  · simp only [h, if_true]
  · simp [h]

/-- The fresh message record built by `addMessage`. -/
def newMsg (author text room : String) (pid : Option String) (id : String)
    (now : Nat) (tm : String) : Message :=
  ⟨id, author, text, tm, now, room, false, [], false, pid, []⟩

/-- C10: a reply added through `addMessage` with a parent id is inserted
into the room index like a root message: the call succeeds, the new
message record carries the parent id, it is appended to the stored
parent's reply list (its nested appearance), and it also occurs as a
top-level element of `getMessagesForRoom` for the room. -/
theorem c10_reply_in_room_listing (s : RepoState) (author text room pid id : String)
    (now : Nat) (tm : String) (p : Message)
    (hrep : checkRepB s = true)
    (ha : ¬(author = "")) (ht : ¬(text = "")) (hr : ¬(room = ""))
    (hpid : ¬(pid = "")) (hp : getMessage s pid = some p)
    (hfresh : listGet s.messages id = none) (hnow : 0 < now) :
    (addMessage s author text room (some pid) id now tm).1 =
      .ok (newMsg author text room (some pid) id now tm) ∧
    getMessage (addMessage s author text room (some pid) id now tm).2 pid =
      some { p with replies := p.replies ++ [id] } ∧
    getMessage (addMessage s author text room (some pid) id now tm).2 id =
      some (newMsg author text room (some pid) id now tm) ∧
    newMsg author text room (some pid) id now tm ∈
      getMessagesForRoom (addMessage s author text room (some pid) id now tm).2 room := by
  have hp' : listGet s.messages pid = some p := hp
  have hne : ¬(pid = id) := by
    intro h
    rw [h, hfresh] at hp'
    cases hp'
  set msg : Message := newMsg author text room (some pid) id now tm with hmsg
  set ms1 := listSet s.messages id msg with hms1
  have hms1pid : listGet ms1 pid = some p := by
    rw [hms1]
    rw [listGet_listSet_ne s.messages id pid msg hne]
    exact hp'
  have hms1id : listGet ms1 id = some msg := listGet_listSet_self s.messages id msg
  set p' : Message := { p with replies := p.replies ++ [id] } with hp'def
  set ms2 := listSet ms1 pid p' with hms2
  have hms2pid : listGet ms2 pid = some p' := listGet_listSet_self ms1 pid p'
  have hms2id : listGet ms2 id = some msg := by
    rw [hms2, listGet_listSet_ne ms1 pid id p' (fun h => hne h.symm)]
    exact hms1id
  -- keys bookkeeping
  have hkeys1 : ms1.map Prod.fst = s.messages.map Prod.fst ++ [id] :=
    map_fst_listSet_of_get_none s.messages id msg hfresh
  have hkeys2 : ms2.map Prod.fst = ms1.map Prod.fst :=
    map_fst_listSet_of_get_some ms1 pid p' p hms1pid
  have hnodup2 : nodupB (ms2.map Prod.fst) = true := by
    rw [hkeys2, hkeys1]
    unfold checkRepB at hrep
    simp only [Bool.and_eq_true] at hrep
    exact nodupB_append_singleton _ id hrep.1
      (keys_any_eq_false_of_get_none s.messages id hfresh)
  -- per-message checks under the extended key list
  have hallms1 : ms1.all
      (fun q => msgOkB (s.messages.map Prod.fst ++ [id]) q.2) = true := by
    rw [hms1]
    apply all_listSet_of
    · unfold checkRepB at hrep
      simp only [Bool.and_eq_true] at hrep
      exact all_imp _ _ _
        (fun a hfa => msgOkB_append (s.messages.map Prod.fst) [id] a.2 hfa) hrep.2
    · simp only [hmsg, newMsg, msgOkB, parentOkB, Bool.and_eq_true, Bool.or_eq_true]
      refine ⟨⟨decide_eq_true hnow, rfl⟩, Or.inr ?_⟩
      rw [any_append_two]
      simp [keys_any_eq_true_of_get_some s.messages pid p hp']
  have hokp' : msgOkB (s.messages.map Prod.fst ++ [id]) p' = true := by
    rw [msgOkB_congr _ p p' rfl rfl rfl]
    exact msgOkB_append _ [id] p (msgOk_of_checkRep s pid p hp' hrep)
  have hallms2 : ms2.all
      (fun q => msgOkB (s.messages.map Prod.fst ++ [id]) q.2) = true := by
    rw [hms2]
    exact all_listSet_of ms1 pid p' _ hallms1 hokp'
  set rooms1 := listSet s.messagesByRoom room
    (setAdd ((listGet s.messagesByRoom room).getD []) id) with hrooms1
  have hrep' : checkRepB ⟨ms2, rooms1⟩ = true := by
    unfold checkRepB
    simp only [Bool.and_eq_true]
    refine ⟨hnodup2, ?_⟩
    have : ms2.map Prod.fst = s.messages.map Prod.fst ++ [id] := by
      rw [hkeys2, hkeys1]
    rw [this]
    exact hallms2
  -- evaluate the call
  have hrepL := hrep'
  simp only [hms2, hms1, hmsg, hp'def, hrooms1, newMsg] at hrepL
  have hadd : addMessage s author text room (some pid) id now tm =
      (.ok msg, ⟨ms2, rooms1⟩) := by
    simp only [hms2, hms1, hmsg, hp'def, hrooms1, newMsg]
    unfold addMessage
    simp only [if_neg ha, if_neg ht, if_neg hr, hp', Option.isNone_some, Bool.and_false,
      Bool.false_eq_true, if_false, if_neg hpid,
      listGet_listSet_ne s.messages id pid _ hne]
    rw [if_pos hrepL]
  refine ⟨by rw [hadd], by rw [hadd]; exact hms2pid, by rw [hadd]; exact hms2id, ?_⟩
  rw [hadd]
  show msg ∈ getMessagesForRoom ⟨ms2, rooms1⟩ room
  unfold getMessagesForRoom
  have hgetroom : listGet rooms1 room =
      some (setAdd ((listGet s.messagesByRoom room).getD []) id) :=
    listGet_listSet_self s.messagesByRoom room _
  rw [hgetroom]
  rw [mem_sortByTs]
  rw [List.mem_filterMap]
  refine ⟨id, mem_setAdd_self _ id, ?_⟩
  rw [hms2id]
  simp [hmsg, newMsg]

/-- The single parent message feeding the C10 witness. -/
def c10WitState : RepoState := addM emptyRepo "alice" "Parent" "room1" none "p1" 1

/-- Witness instantiating `c10_reply_in_room_listing` at a concrete
store. -/
theorem c10_reply_in_room_listing_witness :
    (addMessage c10WitState "bob" "Reply" "room1" (some "p1") "r1" 2 "tm").1 =
      .ok (newMsg "bob" "Reply" "room1" (some "p1") "r1" 2 "tm") ∧
    getMessage (addMessage c10WitState "bob" "Reply" "room1" (some "p1") "r1" 2 "tm").2 "p1" =
      some ⟨"p1", "alice", "Parent", "tm", 1, "room1", false, [], false, none, ["r1"]⟩ ∧
    getMessage (addMessage c10WitState "bob" "Reply" "room1" (some "p1") "r1" 2 "tm").2 "r1" =
      some (newMsg "bob" "Reply" "room1" (some "p1") "r1" 2 "tm") ∧
    newMsg "bob" "Reply" "room1" (some "p1") "r1" 2 "tm" ∈
      getMessagesForRoom (addMessage c10WitState "bob" "Reply" "room1" (some "p1") "r1" 2 "tm").2
        "room1" :=
  c10_reply_in_room_listing c10WitState "bob" "Reply" "room1" "p1" "r1" 2 "tm"
    ⟨"p1", "alice", "Parent", "tm", 1, "room1", false, [], false, none, []⟩
    (by decide) (by decide) (by decide) (by decide) (by decide) (by decide)
    (by decide) (by decide)


/-! ## Claim C3 (amended) -/

theorem foldl_congr_mem {α β : Type} (l : List α) (f g : β → α → β) (init : β)
    (h : ∀ a ∈ l, ∀ acc, f acc a = g acc a) : l.foldl f init = l.foldl g init := by
  induction l generalizing init with
  | nil => rfl
  | cons x xs ih =>
    simp only [List.foldl_cons]
    rw [h x (by simp)]
    exact ih _ fun a ha acc => h a (by simp [ha]) acc

theorem depthDefined_mono (s : RepoState) :
    ∀ (fuel : Nat) (m : Message), depthDefined s fuel m = true →
      depthDefined s (fuel + 1) m = true := by
  intro fuel
  induction fuel with
  | zero =>
    intro m h
    simp [depthDefined] at h
  | succ f ih =>
    intro m h
    have h' : (m.replies.all fun rid =>
        match listGet s.messages rid with
        | some r => r.deleted || depthDefined s f r
        | none => true) = true := h
    show (m.replies.all fun rid =>
        match listGet s.messages rid with
        | some r => r.deleted || depthDefined s (f + 1) r
        | none => true) = true
    refine all_imp _ _ _ (fun rid hfr => ?_) h'
    cases hgr : listGet s.messages rid with
    | none => rfl
    | some r =>
      show (r.deleted || depthDefined s (f + 1) r) = true
      have hfr' : (r.deleted || depthDefined s f r) = true := by
        rw [hgr] at hfr
        exact hfr
      rcases Bool.or_eq_true_iff.mp hfr' with hd | hdd
      · rw [hd]
        rfl
      · rw [ih r hdd]
        simp

theorem calcDepth_stable (s : RepoState) :
    ∀ (f1 f2 : Nat) (m : Message), depthDefined s f1 m = true →
      depthDefined s f2 m = true → calcDepth s f1 m = calcDepth s f2 m := by
  intro f1
  induction f1 with
  | zero =>
    intro f2 m h1 _
    simp [depthDefined] at h1
  | succ g1 ih =>
    intro f2 m h1 h2
    cases f2 with
    | zero => simp [depthDefined] at h2
    | succ g2 =>
      have h1' : (m.replies.all fun rid =>
          match listGet s.messages rid with
          | some r => r.deleted || depthDefined s g1 r
          | none => true) = true := h1
      have h2' : (m.replies.all fun rid =>
          match listGet s.messages rid with
          | some r => r.deleted || depthDefined s g2 r
          | none => true) = true := h2
      simp only [calcDepth]
      by_cases hr : m.replies = []
      · rw [if_pos hr, if_pos hr]
      · rw [if_neg hr, if_neg hr]
        congr 1
        refine foldl_congr_mem _ _ _ _ (fun rid hrid acc => ?_)
        have e1 := List.all_eq_true.mp h1' rid hrid
        have e2 := List.all_eq_true.mp h2' rid hrid
        cases hgr : listGet s.messages rid with
        | none => rfl
        | some r =>
          rw [hgr] at e1 e2
          show (match some r with
            | some r => if r.deleted then acc else max acc (calcDepth s g1 r)
            | none => acc) =
            (match some r with
            | some r => if r.deleted then acc else max acc (calcDepth s g2 r)
            | none => acc)
          by_cases hd : r.deleted
          · simp [hd]
          · have e1' : depthDefined s g1 r = true := by
              have : (r.deleted || depthDefined s g1 r) = true := e1
              rcases Bool.or_eq_true_iff.mp this with hc | hc
              · exact absurd hc hd
              · exact hc
            have e2' : depthDefined s g2 r = true := by
              have : (r.deleted || depthDefined s g2 r) = true := e2
              rcases Bool.or_eq_true_iff.mp this with hc | hc
              · exact absurd hc hd
              · exact hc
            simp only [if_neg hd]
            rw [ih g2 r e1' e2']

theorem foldl_depth_nonneg (s : RepoState) (f : Nat) :
    ∀ (l : List String) (acc : Int), 0 ≤ acc →
      0 ≤ l.foldl (fun acc rid =>
        match listGet s.messages rid with
        | some r => if r.deleted then acc else max acc (calcDepth s f r)
        | none => acc) acc := by
  intro l
  induction l with
  | nil =>
    intro acc h
    simpa using h
  | cons x xs ih =>
    intro acc h
    simp only [List.foldl_cons]
    apply ih
    cases hg : listGet s.messages x with
    | none => exact h
    | some r =>
      show 0 ≤ (if r.deleted then acc else max acc (calcDepth s f r))
      by_cases hd : r.deleted
      · rw [if_pos hd]
        exact h
      · rw [if_neg hd]
        exact le_trans h (le_max_left acc (calcDepth s f r))

theorem calcDepth_nonneg (s : RepoState) :
    ∀ (fuel : Nat) (m : Message), 0 ≤ calcDepth s fuel m := by
  intro fuel
  cases fuel with
  | zero => intro m; simp [calcDepth]
  | succ f =>
    intro m
    simp only [calcDepth]
    by_cases hr : m.replies = []
    · simp [hr]
    · rw [if_neg hr]
      have := foldl_depth_nonneg s f m.replies 0 le_rfl
      omega

/-- The `1 + max(...)` combination of the claim, expressed through
`getThreadDepth` itself: the maximum of the depths of the resolvable
non-deleted replies, starting from the accumulator 0. -/
def childMax (s : RepoState) (m : Message) : Int :=
  m.replies.foldl (fun acc rid =>
    match listGet s.messages rid with
    | some r => if r.deleted then acc else max acc (getThreadDepth s rid)
    | none => acc) 0

/-- C3 amended: `getThreadDepth` returns −1 exactly when the id is
unknown; an existing message with an *empty* reply list has depth 0 (a
message whose replies are all deleted gets `1 + 0`, not 0 — see the
counterexample); an existing message with a non-empty reply list has
depth `1 + max(0, depths of its non-deleted replies)` (`childMax`); and
the result is never negative for an existing message.  The
`depthDefined` hypothesis says the recursion terminates within the
canonical fuel — true of every reply forest the repository builds. -/
theorem c3_threadDepth_amended (s : RepoState) (id : String) :
    (getThreadDepth s id = -1 ↔ getMessage s id = none) ∧
    (∀ m, getMessage s id = some m → m.replies = [] → getThreadDepth s id = 0) ∧
    (∀ m, getMessage s id = some m → 0 ≤ getThreadDepth s id) ∧
    (∀ m, getMessage s id = some m → ¬(m.replies = []) →
      depthDefined s (s.messages.length + 1) m = true →
      getThreadDepth s id = 1 + childMax s m) := by
  refine ⟨?_, ?_, ?_, ?_⟩
  · constructor
    · intro h
      cases hg : listGet s.messages id with
      | none => exact hg
      | some m =>
        unfold getThreadDepth at h
        rw [hg] at h
        have h2 : calcDepth s (s.messages.length + 1) m = -1 := h
        have h3 := calcDepth_nonneg s (s.messages.length + 1) m
        omega
    · intro h
      have h' : listGet s.messages id = none := h
      unfold getThreadDepth
      rw [h']
  · intro m hg hr
    have hg' : listGet s.messages id = some m := hg
    unfold getThreadDepth
    rw [hg']
    show calcDepth s (s.messages.length + 1) m = 0
    simp [calcDepth, hr]
  · intro m hg
    have hg' : listGet s.messages id = some m := hg
    unfold getThreadDepth
    rw [hg']
    exact calcDepth_nonneg s (s.messages.length + 1) m
  · intro m hg hr hdef
    have hg' : listGet s.messages id = some m := hg
    unfold getThreadDepth
    rw [hg']
    show calcDepth s (s.messages.length + 1) m = 1 + childMax s m
    have hdef' : (m.replies.all fun rid =>
        match listGet s.messages rid with
        | some r => r.deleted || depthDefined s s.messages.length r
        | none => true) = true := hdef
    simp only [calcDepth, if_neg hr]
    congr 1
    unfold childMax
    refine foldl_congr_mem _ _ _ _ (fun rid hrid acc => ?_)
    have e1 := List.all_eq_true.mp hdef' rid hrid
    cases hgr : listGet s.messages rid with
    | none => rfl
    | some r =>
      rw [hgr] at e1
      show (match some r with
        | some r => if r.deleted then acc else max acc (calcDepth s s.messages.length r)
        | none => acc) =
        (match some r with
        | some r => if r.deleted then acc else max acc (getThreadDepth s rid)
        | none => acc)
      by_cases hd : r.deleted
      · simp [hd]
      · have e1' : depthDefined s s.messages.length r = true := by
          have hor : (r.deleted || depthDefined s s.messages.length r) = true := e1
          rcases Bool.or_eq_true_iff.mp hor with hc | hc
          · exact absurd hc hd
          · exact hc
        simp only [if_neg hd]
        have hgt : getThreadDepth s rid = calcDepth s (s.messages.length + 1) r := by
          unfold getThreadDepth
          rw [hgr]
        rw [hgt]
        rw [calcDepth_stable s s.messages.length (s.messages.length + 1) r e1'
          (depthDefined_mono s s.messages.length r e1')]

/-- Witness instantiating `c3_threadDepth_amended` at the concrete store
of the counterexample (root `m1` with a single deleted reply `m2`). -/
theorem c3_threadDepth_amended_witness :
    getThreadDepth c3State "m1" = 1 + childMax c3State
      ⟨"m1", "alice", "root", "tm", 1, "room1", false, [], false, none, ["m2"]⟩ ∧
    0 ≤ getThreadDepth c3State "m1" :=
  ⟨(c3_threadDepth_amended c3State "m1").2.2.2
      ⟨"m1", "alice", "root", "tm", 1, "room1", false, [], false, none, ["m2"]⟩
      (by decide) (by decide) (by decide),
    (c3_threadDepth_amended c3State "m1").2.2.1
      ⟨"m1", "alice", "root", "tm", 1, "room1", false, [], false, none, ["m2"]⟩
      (by decide)⟩

/-! ## Claim C8 (amended) -/

namespace ModerationDSL

/-- Is the resolved field value a number? -/
def isNumVal : Option JsVal → Bool
  | some (.num _ _) => true
  | _ => false

/-- Is the resolved field value a string? -/
def isStrVal : Option JsVal → Bool
  | some (.str _) => true
  | _ => false

/-- Strict (`===`) equality of the resolved field value against the
(lowered) condition value: same type and equal. -/
def strictEqB : Option JsVal → JsVal → Bool
  | some (.str a), .str b => a = b
  | some (.num a e1), .num b e2 => numEqB a e1 b e2
  | _, _ => false

end ModerationDSL

/-- C8 amended: when a condition evaluates to true, the numeric operators
(`>`, `<`, `>=`, `<=`) require the field to resolve to a number,
`contains`/`matches` require it to resolve to a string, and `equals` is
the strict `===`: it holds only when field and (coerced, lowercased)
value have the same type and are equal — so `message equals "123"`
against the message text `123` is false (see the counterexample), not
true as the claim's loose-comparison reading says. -/
theorem c8_operator_typing_amended (rtest : String → Option (String → Bool))
    (cond : ModerationDSL.RuleCondition) (message username : String)
    (h : ModerationDSL.evaluateCondition rtest cond message username = true) :
    ((cond.operator = ">" ∨ cond.operator = "<" ∨ cond.operator = ">=" ∨
        cond.operator = "<=") →
      ModerationDSL.isNumVal
        (ModerationDSL.getFieldValue cond.field message username) = true) ∧
    ((cond.operator = "contains" ∨ cond.operator = "matches") →
      ModerationDSL.isStrVal
        (ModerationDSL.getFieldValue cond.field message username) = true) ∧
    (cond.operator = "equals" →
      ModerationDSL.strictEqB
        (ModerationDSL.getFieldValue cond.field message username)
        (ModerationDSL.lowerVal cond.value) = true) := by
  cases hf : ModerationDSL.getFieldValue cond.field message username with
  | none =>
    unfold ModerationDSL.evaluateCondition at h
    rw [hf] at h
    simp at h
  | some fv =>
    unfold ModerationDSL.evaluateCondition at h
    rw [hf] at h
    refine ⟨?_, ?_, ?_⟩
    · intro hop
      cases fv with
      | num mant exp => rfl
      | str a =>
        exfalso
        rcases hop with hop | hop | hop | hop <;> (rw [hop] at h; simp at h)
    · intro hop
      cases fv with
      | str a => rfl
      | num mant exp =>
        exfalso
        rcases hop with hop | hop
        · rw [hop] at h
          simp at h
        · rw [hop] at h
          simp at h
          cases hrt : rtest (ModerationDSL.valToStr (ModerationDSL.lowerVal cond.value)) with
          | none => rw [hrt] at h; simp at h
          | some f => rw [hrt] at h; simp at h
    · intro hop
      rw [hop] at h
      cases fv with
      | str a =>
        cases hv : ModerationDSL.lowerVal cond.value with
        | str b =>
          rw [hv] at h
          simp at h
          show decide (a = b) = true
          exact decide_eq_true h
        | num bm be =>
          rw [hv] at h
          simp at h
      | num am ae =>
        cases hv : ModerationDSL.lowerVal cond.value with
        | str b =>
          rw [hv] at h
          simp at h
        | num bm be =>
          rw [hv] at h
          simp at h
          show ModerationDSL.numEqB am ae bm be = true
          simpa using h

/-- Witness instantiating `c8_operator_typing_amended` at a concrete
condition (`word_count > 1` on a two-word message). -/
theorem c8_operator_typing_amended_witness :
    ModerationDSL.evaluateCondition (fun _ => none)
      ⟨"word_count", ">", .num 1 0⟩ "a b" "u" = true ∧
    ModerationDSL.isNumVal (ModerationDSL.getFieldValue "word_count" "a b" "u") = true :=
  ⟨by decide,
   (c8_operator_typing_amended (fun _ => none) ⟨"word_count", ">", .num 1 0⟩ "a b" "u"
      (by decide)).1 (Or.inl rfl)⟩

/-! ## Claim C9 -/

theorem consistent_sizes (s : UserRepository.UserRepoState)
    (hcons : UserRepository.consistentB s = true) :
    s.usernameIndex.length = s.users.length := by
  unfold UserRepository.consistentB at hcons
  simp only [Bool.and_eq_true, decide_eq_true_eq] at hcons
  exact hcons.1

theorem userJoin_sizes (s : UserRepository.UserRepoState) (id un rm role : String)
    (hcons : UserRepository.consistentB s = true) :
    (UserRepository.userJoin s id un rm role).2.users.length =
      (UserRepository.userJoin s id un rm role).2.usernameIndex.length := by
  have hsz := consistent_sizes s hcons
  unfold UserRepository.userJoin
  by_cases e1 : id = ""
  · simp [e1, hsz]
  by_cases e2 : un = ""
  · simp [e1, e2, hsz]
  by_cases e3 : rm = ""
  · simp [e1, e2, e3, hsz]
  by_cases e4 : (listGet s.users id).isSome = true
  · simp [e1, e2, e3, e4, hsz]
  by_cases e5 : (listGet s.usernameIndex (lowerString un)).isSome = true
  · simp [e1, e2, e3, e4, e5, hsz]
  · have hu : listGet s.users id = none := by
      cases hg : listGet s.users id with
      | none => rfl
      | some v => rw [hg] at e4; simp at e4
    have hi : listGet s.usernameIndex (lowerString un) = none := by
      cases hg : listGet s.usernameIndex (lowerString un) with
      | none => rfl
      | some v => rw [hg] at e5; simp at e5
    have l1 := length_listSet_of_get_none s.users id
      (⟨id, un, rm, role, false, false⟩ : UserRepository.UserRec) hu
    have l2 := length_listSet_of_get_none s.usernameIndex (lowerString un) id hi
    simp only [e1, e2, e3, e4, e5, if_false, if_neg]
    by_cases e6 : UserRepository.userCheckRepB
        ⟨listSet s.users id ⟨id, un, rm, role, false, false⟩,
          listSet s.usernameIndex (lowerString un) id⟩ = true
    · simp [e1, e2, e3, e4, e5, e6, l1, l2, hsz]
    · simp [e1, e2, e3, e4, e5, e6, l1, l2, hsz]

theorem userLeave_sizes (s : UserRepository.UserRepoState) (id : String)
    (hcons : UserRepository.consistentB s = true) :
    (UserRepository.userLeave s id).2.users.length =
      (UserRepository.userLeave s id).2.usernameIndex.length := by
  have hsz := consistent_sizes s hcons
  unfold UserRepository.userLeave
  cases hg : listGet s.users id with
  | none => simp [hsz]
  | some u =>
    have hidx : listGet s.usernameIndex (lowerString u.username) = some id := by
      unfold UserRepository.consistentB at hcons
      simp only [Bool.and_eq_true] at hcons
      have := all_of_listGet s.users id u _ hg hcons.2
      simpa using this
    have l1 := length_eraseKey_of_get_some s.users id u hg
    have l2 := length_eraseKey_of_get_some s.usernameIndex (lowerString u.username) id hidx
    by_cases e6 : UserRepository.userCheckRepB
        ⟨eraseKey s.users id, eraseKey s.usernameIndex (lowerString u.username)⟩ = true
    · simp [e6]
      omega
    · simp [e6]
      omega

/-- C9: from an empty registry, `userJoin(s1, 'Bob', 'r1')` succeeds;
`userJoin(s2, 'bob', 'r1')` then *returns* the duplicate-username error
value (no exception) and adds no user (the state is unchanged); after
`userLeave(s1)` the same join succeeds; and — for any consistent registry
state — both `userJoin` and `userLeave` leave the by-connection and
by-username indices with equal cardinality. -/
theorem c9_user_registry (s1 s2 : String) (h1 : ¬(s1 = "")) (h2 : ¬(s2 = ""))
    (hne : ¬(s2 = s1)) (s : UserRepository.UserRepoState) (id un rm role : String)
    (hcons : UserRepository.consistentB s = true) :
    UserRepository.userJoin UserRepository.emptyUsers s1 "Bob" "r1" "user" =
      (.ok (.joined ⟨s1, "Bob", "r1", "user", false, false⟩),
        ⟨[(s1, ⟨s1, "Bob", "r1", "user", false, false⟩)], [("bob", s1)]⟩) ∧
    UserRepository.userJoin
        ⟨[(s1, ⟨s1, "Bob", "r1", "user", false, false⟩)], [("bob", s1)]⟩
        s2 "bob" "r1" "user" =
      (.ok (.err "Username is already taken"),
        ⟨[(s1, ⟨s1, "Bob", "r1", "user", false, false⟩)], [("bob", s1)]⟩) ∧
    UserRepository.userLeave
        ⟨[(s1, ⟨s1, "Bob", "r1", "user", false, false⟩)], [("bob", s1)]⟩ s1 =
      (.ok (some ⟨s1, "Bob", "r1", "user", false, false⟩), ⟨[], []⟩) ∧
    UserRepository.userJoin (⟨[], []⟩ : UserRepository.UserRepoState) s2 "bob" "r1" "user" =
      (.ok (.joined ⟨s2, "bob", "r1", "user", false, false⟩),
        ⟨[(s2, ⟨s2, "bob", "r1", "user", false, false⟩)], [("bob", s2)]⟩) ∧
    (UserRepository.userJoin s id un rm role).2.users.length =
      (UserRepository.userJoin s id un rm role).2.usernameIndex.length ∧
    (UserRepository.userLeave s id).2.users.length =
      (UserRepository.userLeave s id).2.usernameIndex.length := by
  have hlowBob : lowerString "Bob" = "bob" := by decide
  have hlowbob : lowerString "bob" = "bob" := by decide
  have hne' : ¬(s1 = s2) := fun h => hne h.symm
  refine ⟨?_, ?_, ?_, ?_, userJoin_sizes s id un rm role hcons,
    userLeave_sizes s id hcons⟩
  · simp [UserRepository.userJoin, UserRepository.emptyUsers, h1, hlowBob,
      listGet, listSet, UserRepository.userCheckRepB, nodupB]
  · simp [UserRepository.userJoin, h2, hne', hlowbob, listGet, listSet,
      UserRepository.userCheckRepB, nodupB]
  · simp [UserRepository.userLeave, listGet, eraseKey, hlowBob,
      UserRepository.userCheckRepB, nodupB]
  · simp [UserRepository.userJoin, h2, hlowbob, listGet, listSet,
      UserRepository.userCheckRepB, nodupB]

/-- A consistent one-user registry feeding the C9 witness. -/
def c9WitReg : UserRepository.UserRepoState :=
  ⟨[("socket9", ⟨"socket9", "Zed", "r9", "user", false, false⟩)], [("zed", "socket9")]⟩

/-- Witness instantiating `c9_user_registry` at concrete socket ids and a
concrete consistent registry. -/
theorem c9_user_registry_witness :
    UserRepository.userJoin
        ⟨[("socket1", ⟨"socket1", "Bob", "r1", "user", false, false⟩)], [("bob", "socket1")]⟩
        "socket2" "bob" "r1" "user" =
      (.ok (.err "Username is already taken"),
        ⟨[("socket1", ⟨"socket1", "Bob", "r1", "user", false, false⟩)], [("bob", "socket1")]⟩) ∧
    (UserRepository.userJoin c9WitReg "x" "Ann" "r2" "user").2.users.length =
      (UserRepository.userJoin c9WitReg "x" "Ann" "r2" "user").2.usernameIndex.length :=
  ⟨(c9_user_registry "socket1" "socket2" (by decide) (by decide) (by decide)
      c9WitReg "x" "Ann" "r2" "user" (by decide)).2.1,
   (c9_user_registry "socket1" "socket2" (by decide) (by decide) (by decide)
      c9WitReg "x" "Ann" "r2" "user" (by decide)).2.2.2.2.1⟩
